import Mathlib

/-!
# Reply selection of the chat widget (`assets/script.js`)

A shallow embedding of the script's reply logic: `normalize`, `scoreTopic`, `craftReply`,
`handleUserMessage` and the clear-conversation handler, together with the `personality`
table they read.

* A JavaScript string is a sequence of UTF-16 code units, so a string is a `List Nat` here
  (`JSString`); the regular expressions of the script carry no `u` flag and work code unit by
  code unit.
* `Math.random()` is a double in `[0, 1)`; `Draw` holds such a double exactly, and
  `Math.floor(Math.random() * n)` is computed with the IEEE 754 rounding of the product.
* Reading an array out of bounds gives `undefined`, which is `none` here.
* `handleUserMessage` is in two halves, before and after its `await`, with the events that
  happen during the wait between them; a node of the chat log carries a number that tells
  which object it is.
-/

namespace ChatBot

/-! ## Strings -/

/-- A JavaScript string: its UTF-16 code units. -/
abbrev JSString := List Nat

/-- The UTF-16 code units of one Unicode scalar value. -/
def utf16Char (c : Char) : List Nat :=
  if c.toNat < 65536 then [c.toNat]
  else [55296 + (c.toNat - 65536) / 1024, 56320 + (c.toNat - 65536) % 1024]

/-- The JavaScript string written by a literal. -/
def utf16 (s : String) : JSString :=
  s.toList.flatMap utf16Char

/-! ## `normalize` -/

/-- The range `a-z` of the character class. -/
def isLowerAZ (c : Nat) : Bool := decide (97 ≤ c) && decide (c ≤ 122)

/-- The range `0-9` of the character class. -/
def isDigit09 (c : Nat) : Bool := decide (48 ≤ c) && decide (c ≤ 57)

/-- The code units matched by `\s` (ECMAScript WhiteSpace and LineTerminator): tab, line feed,
vertical tab, form feed, carriage return, space, U+00A0, U+1680, U+2000 to U+200A, U+2028,
U+2029, U+202F, U+205F, U+3000 and U+FEFF. -/
def isSpace (c : Nat) : Bool :=
  (decide (9 ≤ c) && decide (c ≤ 13)) || c == 32 || c == 160 || c == 5760 ||
  (decide (8192 ≤ c) && decide (c ≤ 8202)) || c == 8232 || c == 8233 || c == 8239 ||
  c == 8287 || c == 12288 || c == 65279

/-- Membership in the class `[a-z0-9\s]`, whose complement `normalize` replaces. -/
def keeps (c : Nat) : Bool := isLowerAZ c || isDigit09 c || isSpace c

/-- The lowercase image of one code unit under `String.prototype.toLowerCase`, restricted to the
mappings that `normalize` can observe: those whose source or image meets the class `[a-z0-9\s]`
(`A`-`Z`, the Kelvin sign U+212A, whose lowercase is `k`, and U+0130, whose lowercase is `i`
followed by U+0307, the only mapping that changes the length). Every other lowercase mapping
of JavaScript puts, in the place of a code unit outside the class, one code unit that is
outside the class too (within surrogate pairs and for the final sigma as well); such a code
unit is kept as is here, which the replacement that follows in `normalize` cannot tell apart. -/
def lowerUnit (c : Nat) : List Nat :=
  if 65 ≤ c ∧ c ≤ 90 then [c + 32]
  else if c = 8490 then [107]
  else if c = 304 then [105, 775]
  else [c]

/-- Model of `text.toLowerCase()`; see `lowerUnit`. -/
def toLowerCase (text : JSString) : JSString :=
  text.flatMap lowerUnit

/-- Model of `.replace(/[^a-z0-9\s]/g, ' ')`: every code unit outside the class becomes one
space. -/
def replaceNonAlnum (text : JSString) : JSString :=
  text.map fun c => if keeps c then c else 32

/-- Model of `normalize(text)`:
`return text.toLowerCase().replace(/[^a-z0-9\s]/g, ' ');` -/
def normalize (text : JSString) : JSString :=
  replaceNonAlnum (toLowerCase text)

/-! ## The personality table -/

/-- One entry of `personality.topics`. -/
structure Topic where
  label : JSString
  terms : List JSString
  replies : List JSString
deriving DecidableEq, Repr

/-- The shape of the `personality` object. -/
structure Personality where
  greetings : List JSString
  fallbacks : List JSString
  topics : List Topic

/-- The topic labelled `planning`. -/
def planning : Topic where
  label := utf16 "planning"
  terms := [utf16 "plan", utf16 "roadmap", utf16 "schedule", utf16 "timeline", utf16 "strateg"]
  replies := [
    utf16 "A quick plan: clarify your objective, list the milestones, then break them into actionable next steps.",
    utf16 "Let’s map it out: vision → milestones → weekly focus → daily tasks. Want to fill it in together?",
    utf16 "Start with the outcome you want, then work backward to the next thing that moves you there."]

/-- The topic labelled `ideas`. -/
def ideas : Topic where
  label := utf16 "ideas"
  terms := [utf16 "idea", utf16 "brainstorm", utf16 "creative", utf16 "concept"]
  replies := [
    utf16 "Try a “three angles” brainstorm: obvious, risky, and wildcard. Which sounds fun to explore?",
    utf16 "Let’s riff! Describe your constraints and goal, and I’ll pitch variations.",
    utf16 "Think of three audiences, then tailor the idea to each — you’ll discover fresh directions fast."]

/-- The topic labelled `motivation`. -/
def motivation : Topic where
  label := utf16 "motivation"
  terms := [utf16 "stuck", utf16 "motivation", utf16 "energy", utf16 "burnout", utf16 "tired"]
  replies := [
    utf16 "Momentum hack: name one tiny task you can finish in under 5 minutes and celebrate it.",
    utf16 "Energy check: hydrate, two deep breaths, and reset your intention — small rituals raise focus.",
    utf16 "Try “time boxing” 20 minutes with a single goal. Short bursts make big tasks feel doable."]

/-- The topic labelled `tech`. -/
def tech : Topic where
  label := utf16 "tech"
  terms := [utf16 "code", utf16 "bug", utf16 "debug", utf16 "api", utf16 "database", utf16 "deploy"]
  replies := [
    utf16 "Start by restating the problem: what did you expect, what happened, and what changed recently?",
    utf16 "Log the inputs/outputs to isolate the breaking point — debugging is detective work with data.",
    utf16 "Version control saves the day: checkpoint your state, experiment freely, and roll back if needed."]

/-- The constant `personality` of the script. -/
def personality : Personality where
  greetings := [
    utf16 "Hey there! What's on your mind today?",
    utf16 "Hi! Ready when you are — what can I help with?",
    utf16 "Hello! Ask me anything or let me know what you’re working on."]
  fallbacks := [
    utf16 "I'm not sure I understand that yet, but we can figure it out together.",
    utf16 "That's new to me, but let's break it down and tackle it step by step.",
    utf16 "I don't have that information, yet I can help brainstorm a strategy around it."]
  topics := [planning, ideas, motivation, tech]

/-! ## The conversation history -/

/-- The `variant` field of a message: the strings `'user'` and `'bot'`. -/
inductive Variant where
  | user
  | bot
deriving DecidableEq, Repr

/-- A message object `{ author, text, time, variant }`, as pushed on `history`. The `text` of a
bot entry is whatever `craftReply` returned, so it is a string or `undefined` (`none`). -/
structure Entry where
  author : JSString
  text : Option JSString
  time : JSString
  variant : Variant
deriving DecidableEq, Repr

/-! ## Random picks -/

/-- A double in `[0, 1)`, the range of `Math.random()`: the value
`mant / 2 ^ (53 + scale)`. Every double in `[0, 1)` has this form (a normal number
`m * 2 ^ e` with `2 ^ 52 ≤ m < 2 ^ 53` and `-1074 ≤ e ≤ -53`, a subnormal one with
`scale = 1021`), and every value of this form is a double below `1`. -/
structure Draw where
  mant : Fin (2 ^ 53)
  scale : Fin 1022

/-- The number of low bits that `p` has beyond 53 significant bits, found by halving (at most
`fuel` times; `fuel = p` is always enough). -/
def excessBits : Nat → Nat → Nat
  | 0, _ => 0
  | fuel + 1, p => if p < 2 ^ 53 then 0 else excessBits fuel (p / 2) + 1

/-- IEEE 754 round-to-nearest, ties-to-even, of a natural number to 53 significant bits: `p` is
kept when it is below `2 ^ 53`, and is otherwise rounded at its 53rd bit. -/
def roundToDouble (p : Nat) : Nat :=
  let b := excessBits p p
  let q := p / 2 ^ b
  let rest := p % 2 ^ b
  let half := 2 ^ (b - 1)
  if b = 0 then p
  else if rest < half then q * 2 ^ b
  else if rest = half ∧ q % 2 = 0 then q * 2 ^ b
  else (q + 1) * 2 ^ b

/-- Model of `Math.floor(Math.random() * n)` for the draw `r` and an array length `n`. The
exact product is `mant * n / 2 ^ (53 + scale)`. It is rounded to a double by rounding the
numerator to 53 bits: a numerator below `2 ^ 53` is a double as it stands, since the
denominator is at most `2 ^ 1074`, and a larger one gives a normal number; array lengths are
below `2 ^ 32`, so nothing overflows. The floor then drops the bits below the binary point. -/
def randomIndex (r : Draw) (n : Nat) : Nat :=
  roundToDouble (r.mant.val * n) >>> (53 + r.scale.val)

/-- Model of `pool[Math.floor(Math.random() * pool.length)]`; `none` is `undefined`. -/
def pick (pool : List JSString) (r : Draw) : Option JSString :=
  pool[randomIndex r pool.length]?

/-! ## `scoreTopic` -/

/-- Model of `text.includes(term)`: `term` occurs in `text` as a contiguous run. -/
def includes : JSString → JSString → Bool
  | [], term => term.isEmpty
  | c :: rest, term => term.isPrefixOf (c :: rest) || includes rest term

/-- The objects `{ topic, hits }` built by `scoreTopic`. -/
structure Scored where
  topic : Topic
  hits : Nat
deriving DecidableEq, Repr

/-- Model of the reducer `(count, term) => count + (normalized.includes(term) ? 1 : 0)` run
over `topic.terms` from `0`. -/
def countHits (normalized : JSString) (topic : Topic) : Nat :=
  topic.terms.foldl (fun count term => count + (if includes normalized term then 1 else 0)) 0

/-- The comparator `(a, b) => b.hits - a.hits`. -/
def compareHits (a b : Scored) : Int := (b.hits : Int) - (a.hits : Int)

/-- Insertion of `a` in front of the first element it does not have to follow. -/
def sortInsert (cmp : α → α → Int) (a : α) : List α → List α
  | [] => [a]
  | b :: l => if cmp a b ≤ 0 then a :: b :: l else b :: sortInsert cmp a l

/-- Model of `Array.prototype.sort(cmp)`, which is a stable sort (ECMAScript 2019): of two
elements that the comparator does not order strictly, the one that came first stays first.
With a consistent comparator this fixes the result, whichever algorithm the engine runs. -/
def sort (cmp : α → α → Int) : List α → List α
  | [] => []
  | a :: l => sortInsert cmp a (sort cmp l)

/-- Model of `scoreTopic(text)`. -/
def scoreTopic (text : JSString) : List Scored :=
  let normalized := normalize text
  sort compareHits
    ((personality.topics.map fun topic => (⟨topic, countHits normalized topic⟩ : Scored)).filter
      fun s => decide (s.hits > 0))

/-! ## `craftReply` -/

/-- The class `\w` of a regular expression without flags: `[A-Za-z0-9_]`. -/
def isWordUnit (c : Nat) : Bool :=
  (decide (65 ≤ c) && decide (c ≤ 90)) || isLowerAZ c || isDigit09 c || c == 95

/-- The assertion `\b` at position `p` of `s`: exactly one of the code units before and after
the position is a word character (a missing one counts as not a word character). -/
def wordBoundaryAt (s : JSString) (p : Nat) : Bool :=
  let before := decide (0 < p) && (s[p - 1]?.map isWordUnit).getD false
  let after := (s[p]?.map isWordUnit).getD false
  before != after

/-- The alternatives of the greeting pattern, in order. -/
def greetingWords : List JSString :=
  [utf16 "hi", utf16 "hello", utf16 "hey", utf16 "yo", utf16 "sup"]

/-- Model of `/^(hi|hello|hey|yo|sup)\b/.test(s)`: some alternative is a prefix of `s` and is
followed by a word boundary. -/
def greetingTest (s : JSString) : Bool :=
  greetingWords.any fun w => w.isPrefixOf s && wordBoundaryAt s w.length

/-- The fixed reply of the continuation branch. -/
def continuation : JSString := utf16 "Let's build on that — what part should we tackle first?"

/-- Model of `craftReply(input)`, with the global `history` and the value of `Math.random()`
as explicit arguments. -/
def craftReply (history : List Entry) (r : Draw) (input : JSString) : Option JSString :=
  let normalized := normalize input
  if greetingTest normalized then pick personality.greetings r
  else
    match scoreTopic normalized with
    | best :: _ => pick best.topic.replies r
    | [] =>
      if history.length ≠ 0 ∧ (history[history.length - 1]?.map Entry.variant) = some Variant.bot
      then some continuation
      else pick personality.fallbacks r

/-! ## The handlers that change `history` -/

/-- A node built by `createMessage` from the message template: which object it is (`id`, a
number no other node carries), the three text contents, the class `message--bot` or
`message--user` (as the variant it stands for), the avatar, and whether the class
`message--ghost` of the typing indicator was added. -/
structure Node where
  id : Nat
  author : JSString
  time : JSString
  text : Option JSString
  variant : Variant
  avatar : JSString
  ghost : Bool
deriving DecidableEq, Repr

/-- The mutable state the handlers act on: the array `history`, the children of the element
`chatLog`, `chatInput.value`, and the number of nodes created so far, which names the next
node. (Scrolling and the height of the input are not modelled.) -/
structure State where
  history : List Entry
  chatLog : List Node
  chatInput : JSString
  nextId : Nat

/-- Model of `createMessage({ author, text, time, variant })`; `id` names the clone of the
template that it returns. -/
def createMessage (id : Nat) (m : Entry) : Node where
  id := id
  author := m.author
  time := m.time
  text := m.text
  variant := m.variant
  avatar := if m.variant = Variant.bot then utf16 "🤖" else utf16 "🧑"
  ghost := false

/-- Model of `appendMessage(message)`: a new node is appended to `chatLog`; `history` is not
touched. -/
def appendMessage (st : State) (message : Entry) : State :=
  { st with
    chatLog := st.chatLog ++ [createMessage st.nextId message]
    nextId := st.nextId + 1 }

/-- The entry `userEntry` of `handleUserMessage`. -/
def userEntry (message time : JSString) : Entry :=
  { author := utf16 "You", text := some message, time := time, variant := Variant.user }

/-- The entry `botEntry` of `handleUserMessage`. -/
def botEntry (reply : Option JSString) (time : JSString) : Entry :=
  { author := utf16 "Bot", text := reply, time := time, variant := Variant.bot }

/-- The node `typingEntry` of `handleUserMessage`. -/
def typingEntry (id : Nat) (time : JSString) : Node :=
  { createMessage id (botEntry (some (utf16 "typing...")) time) with
    ghost := true, avatar := utf16 "💭" }

/-- Model of `handleUserMessage(message)` up to its `await wait(lag)`: the user's entry is
pushed on `history` and rendered, and the typing indicator is created and appended. `t1` and
`t2` are the two results of `formatTime()`. The result is the state at the `await` and the
node held by the local `typingEntry`. -/
def handleUserMessageStart (st : State) (message t1 t2 : JSString) : State × Node :=
  let st1 := appendMessage { st with history := st.history ++ [userEntry message t1] }
    (userEntry message t1)
  let typing := typingEntry st1.nextId t2
  ({ st1 with chatLog := st1.chatLog ++ [typing], nextId := st1.nextId + 1 }, typing)

/-- Model of `handleUserMessage(message)` after its `await`, on the state as it is then:
`typingEntry.remove()` takes the node `typing` out of `chatLog` if it is still there, the
reply is computed on the history as it is now, pushed and rendered. `t3` is the result of
`formatTime()` and `r` the value of `Math.random()`. -/
def handleUserMessageResume (st : State) (message : JSString) (typing : Node) (t3 : JSString)
    (r : Draw) : State :=
  let st1 := { st with chatLog := st.chatLog.filter fun n => n.id != typing.id }
  let reply := craftReply st1.history r message
  appendMessage { st1 with history := st1.history ++ [botEntry reply t3] } (botEntry reply t3)

/-- The message rendered by the clear handler. -/
def clearedMessage (time : JSString) : Entry :=
  botEntry (some (utf16 "All cleared! What's next on your mind?")) time

/-- Model of the click handler of `clearBtn`: the children of `chatLog` after the first are
removed, `history.length = 0`, the input is emptied, and the cleared message is handed to
`appendMessage`. -/
def clearClick (st : State) (time : JSString) : State :=
  appendMessage
    { history := [], chatLog := st.chatLog.take 1, chatInput := [], nextId := st.nextId }
    (clearedMessage time)

/-- What can happen while a run of `handleUserMessage` waits, other than another run of it: a
click on the clear button (`time` is the result of its `formatTime()`), or an edit of the
text area (the listener of `input` changes the height only; the value is what was typed). A
submit of a blank text returns before it changes anything. -/
inductive Event where
  | clear (time : JSString)
  | edit (value : JSString)
deriving DecidableEq, Repr

/-- Whether the event is a click on the clear button. -/
def Event.isClear : Event → Bool
  | Event.clear _ => true
  | Event.edit _ => false

/-- The effect of one event on the state. -/
def handleEvent (st : State) : Event → State
  | Event.clear time => clearClick st time
  | Event.edit value => { st with chatInput := value }

/-- One run of `handleUserMessage(message)` from start to end, with the events `during` its
wait; no other run of `handleUserMessage` starts before it ends. -/
def handleUserMessage (st : State) (message t1 t2 : JSString) (during : List Event)
    (t3 : JSString) (r : Draw) : State :=
  let started := handleUserMessageStart st message t1 t2
  handleUserMessageResume (during.foldl handleEvent started.1) message started.2 t3 r

/-- One thing that happens to the widget when messages are handled one after the other: a
whole run of `handleUserMessage`, or an event between two runs. -/
inductive Action where
  | message (message t1 t2 : JSString) (during : List Event) (t3 : JSString) (r : Draw)
  | event (e : Event)

/-- The effect of one action on the state. -/
def handleAction (st : State) : Action → State
  | Action.message message t1 t2 during t3 r => handleUserMessage st message t1 t2 during t3 r
  | Action.event e => handleEvent st e

/-- A session in which every message is handled to its end before the next one starts. -/
def handleAll (st : State) (actions : List Action) : State :=
  actions.foldl handleAction st

/-- The states of a page: no node is a child of `chatLog` twice, and a node created from now on
is none of its children. -/
def WellFormed (st : State) : Prop :=
  (st.chatLog.map Node.id).Nodup ∧ ∀ n ∈ st.chatLog, n.id < st.nextId

/-- A state with two entries in its history and two rendered messages, for the examples. -/
def sampleState : State where
  history := [userEntry (utf16 "hi") (utf16 "10:00"),
    botEntry (some (utf16 "Hey there! What's on your mind today?")) (utf16 "10:00")]
  chatLog := [createMessage 0 (userEntry (utf16 "hi") (utf16 "10:00")),
    createMessage 1 (botEntry (some (utf16 "Hey there! What's on your mind today?"))
      (utf16 "10:00"))]
  chatInput := utf16 "draft"
  nextId := 2

/-- The draw `0.5`. -/
def half : Draw := ⟨⟨2 ^ 52, by decide⟩, ⟨0, by decide⟩⟩

/-- The largest double below `1`. -/
def almostOne : Draw := ⟨⟨2 ^ 53 - 1, by decide⟩, ⟨0, by decide⟩⟩

/-- The largest double below a third. -/
def belowThird : Draw := ⟨⟨6004799503160661, by decide⟩, ⟨1, by decide⟩⟩

/-- The smallest positive double. -/
def tiny : Draw := ⟨⟨1, by decide⟩, ⟨1021, by decide⟩⟩

/-! ## The words of the specification -/

/-- Said from the specification: the number of terms of `topic` that occur in `text`, each term
counted once however often it occurs. -/
def hitCount (text : JSString) (topic : Topic) : Nat :=
  topic.terms.countP fun term => decide (term <:+: text)

/-- The pair that `scoreTopic` builds for one topic. -/
def scored (normalized : JSString) (topic : Topic) : Scored :=
  ⟨topic, countHits normalized topic⟩

/-- Said from the specification: the pairs of the topics that have at least one term occurring
in `text`, each with its number of occurring terms, in the order of `personality.topics`. -/
def matchedTopics (text : JSString) : List Scored :=
  (personality.topics.filter fun t => decide (1 ≤ hitCount text t)).map
    fun t => ⟨t, hitCount text t⟩

/-- Said from the specification: `w` is a prefix of `s` and is immediately followed by the end
of the text or by a whitespace character. -/
def followedByEndOrSpace (s w : JSString) : Bool :=
  w.isPrefixOf s &&
    match s.drop w.length with
    | [] => true
    | c :: _ => isSpace c

/-- Said from the specification: the text starts with one of `hi`, `hello`, `hey`, `yo`, `sup`
immediately followed by the end of the text or by a whitespace character. -/
def startsWithGreeting (s : JSString) : Bool :=
  greetingWords.any fun w => followedByEndOrSpace s w

/-! ## Facts about `normalize` -/

theorem keeps_space : keeps 32 = true := by decide

theorem lowerUnit_of_keeps {c : Nat} (h : keeps c = true) : lowerUnit c = [c] := by
  have h1 : ¬ (65 ≤ c ∧ c ≤ 90) := by
    intro hc
    simp [keeps, isLowerAZ, isDigit09, isSpace] at h
    omega
  have h2 : c ≠ 8490 := by
    rintro rfl
    revert h
    decide
  have h3 : c ≠ 304 := by
    rintro rfl
    revert h
    decide
  simp [lowerUnit, h1, h2, h3]

theorem toLowerCase_of_keeps : ∀ {s : JSString}, (∀ c ∈ s, keeps c = true) → toLowerCase s = s
  | [], _ => rfl
  | c :: s, h => by
    have hc : lowerUnit c = [c] := lowerUnit_of_keeps (h c (List.mem_cons_self c s))
    have hs : toLowerCase s = s := toLowerCase_of_keeps fun d hd => h d (List.mem_cons_of_mem c hd)
    have : toLowerCase (c :: s) = lowerUnit c ++ toLowerCase s := by
      simp [toLowerCase]
    rw [this, hc, hs]
    rfl

theorem replaceNonAlnum_of_keeps :
    ∀ {s : JSString}, (∀ c ∈ s, keeps c = true) → replaceNonAlnum s = s
  | [], _ => rfl
  | c :: s, h => by
    have hs : replaceNonAlnum s = s :=
      replaceNonAlnum_of_keeps fun d hd => h d (List.mem_cons_of_mem c hd)
    have hc : keeps c = true := h c (List.mem_cons_self c s)
    have : replaceNonAlnum (c :: s) = (if keeps c then c else 32) :: replaceNonAlnum s := rfl
    rw [this, hs, hc]
    rfl

theorem keeps_of_mem_replaceNonAlnum {s : JSString} {c : Nat} (h : c ∈ replaceNonAlnum s) :
    keeps c = true := by
  obtain ⟨d, _, rfl⟩ := List.mem_map.mp h
  by_cases hd : keeps d = true
  · simp [hd]
  · simpa [hd] using keeps_space

theorem keeps_of_mem_normalize {x : JSString} {c : Nat} (h : c ∈ normalize x) :
    keeps c = true :=
  keeps_of_mem_replaceNonAlnum h

theorem normalize_normalize (x : JSString) : normalize (normalize x) = normalize x := by
  have h : ∀ c ∈ normalize x, keeps c = true := fun c hc => keeps_of_mem_normalize hc
  show replaceNonAlnum (toLowerCase (normalize x)) = normalize x
  rw [toLowerCase_of_keeps h, replaceNonAlnum_of_keeps h]

/-- C6: `normalize` is idempotent: `normalize(normalize(x)) = normalize(x)` for every string. -/
theorem C6_normalize_idempotent (x : JSString) : normalize (normalize x) = normalize x :=
  normalize_normalize x

/-- C7: every code unit of `normalize(x)` is a letter `a`-`z`, a digit `0`-`9` or a whitespace
character; position by position it is the code unit of the lowercased input where that one is
in this set, and one space where it is not, so the output is as long as the lowercased input;
and the empty string is mapped to the empty string. -/
theorem C7_normalize_output (x : JSString) :
    (∀ c ∈ normalize x, isLowerAZ c = true ∨ isDigit09 c = true ∨ isSpace c = true) ∧
    (∀ i : Nat, (normalize x)[i]? = (toLowerCase x)[i]?.map fun c =>
      if isLowerAZ c = true ∨ isDigit09 c = true ∨ isSpace c = true then c else 32) ∧
    (normalize x).length = (toLowerCase x).length ∧
    normalize [] = [] := by
  refine ⟨?_, ?_, ?_, rfl⟩
  · intro c hc
    have := keeps_of_mem_normalize hc
    simpa [keeps, or_assoc] using this
  · intro i
    simp [normalize, replaceNonAlnum, keeps, or_assoc]
  · simp [normalize, replaceNonAlnum]

/-! ## Checks of the model on concrete inputs -/

theorem normalize_examples :
    normalize (utf16 "Hello there") = utf16 "hello there" ∧
    normalize (utf16 "Let's make a roadmap for Q3") = utf16 "let s make a roadmap for q3" ∧
    normalize (utf16 "İ\u212A") = utf16 "i k" ∧
    normalize (utf16 "a🤖b") = utf16 "a  b" := by
  decide

/-- The draws `0.5`, the largest double below `1`, the largest double below a third (whose
product with `3` rounds up to `1`) and the smallest positive double. -/
theorem randomIndex_examples :
    randomIndex half 3 = 1 ∧ randomIndex almostOne 3 = 2 ∧ randomIndex belowThird 3 = 1 ∧
      randomIndex tiny 3 = 0 := by
  decide

theorem craftReply_examples :
    craftReply [] half (utf16 "Hello there") = personality.greetings[1]? ∧
    craftReply [] half (utf16 "debugging my plan") = tech.replies[1]? ∧
    craftReply [] half (utf16 "plan an idea") = planning.replies[1]? ∧
    craftReply [] half (utf16 "hit me") = personality.fallbacks[1]? := by
  decide

/-! ## Facts about random picks -/

/-- When `excessBits` drops `b > 0` bits, the number has at least `53 + b` bits. -/
theorem excessBits_le (fuel : Nat) :
    ∀ p : Nat, excessBits fuel p = 0 ∨ 2 ^ 52 * 2 ^ excessBits fuel p ≤ p := by
  induction fuel with
  | zero => intro p; exact Or.inl rfl
  | succ fuel ih =>
    intro p
    by_cases hp : p < 2 ^ 53
    · left
      exact if_pos hp
    · right
      have hstep : excessBits (fuel + 1) p = excessBits fuel (p / 2) + 1 := if_neg hp
      rw [hstep, Nat.pow_succ]
      rcases ih (p / 2) with h0 | hle
      · rw [h0]
        omega
      · have : 2 ^ 52 * 2 ^ excessBits fuel (p / 2) * 2 ≤ p / 2 * 2 := Nat.mul_le_mul_right 2 hle
        have h2 : p / 2 * 2 ≤ p := Nat.div_mul_le_self p 2
        calc 2 ^ 52 * (2 ^ excessBits fuel (p / 2) * 2)
            = 2 ^ 52 * 2 ^ excessBits fuel (p / 2) * 2 := by ring
          _ ≤ p := le_trans this h2

/-- With enough fuel, what is left after dropping `excessBits` bits fits in 53 bits. -/
theorem excessBits_spec (fuel : Nat) :
    ∀ p : Nat, p < 2 ^ 53 * 2 ^ fuel → p / 2 ^ excessBits fuel p < 2 ^ 53 := by
  induction fuel with
  | zero => intro p hp; simpa [excessBits] using hp
  | succ fuel ih =>
    intro p hp
    by_cases hlt : p < 2 ^ 53
    · have hstep : excessBits (fuel + 1) p = 0 := if_pos hlt
      rw [hstep]
      simpa using hlt
    · have hstep : excessBits (fuel + 1) p = excessBits fuel (p / 2) + 1 := if_neg hlt
      have hhalf : p / 2 < 2 ^ 53 * 2 ^ fuel := by
        rw [Nat.pow_succ] at hp
        omega
      have := ih (p / 2) hhalf
      rw [hstep, Nat.pow_succ, Nat.mul_comm, ← Nat.div_div_eq_div_mul]
      exact this

/-- The fuel that `roundToDouble` gives is enough: the quotient it rounds fits in 53 bits. -/
theorem excessBits_self (p : Nat) : p / 2 ^ excessBits p p < 2 ^ 53 := by
  apply excessBits_spec
  calc p < 2 ^ p := Nat.lt_two_pow p
    _ ≤ 2 ^ 53 * 2 ^ p := Nat.le_mul_of_pos_left _ (by decide)

/-- Rounding moves a number up by at most half a unit in the last place. -/
theorem roundToDouble_le (p : Nat) :
    roundToDouble p = p ∨
      (excessBits p p ≠ 0 ∧ roundToDouble p ≤ p + 2 ^ (excessBits p p - 1)) := by
  unfold roundToDouble
  simp only
  generalize excessBits p p = b
  by_cases hb : b = 0
  · left
    simp [hb]
  · right
    refine ⟨hb, ?_⟩
    have hdm : 2 ^ b * (p / 2 ^ b) + p % 2 ^ b = p := Nat.div_add_mod p (2 ^ b)
    have hpow : 2 ^ b = 2 * 2 ^ (b - 1) := by
      obtain ⟨k, rfl⟩ := Nat.exists_eq_succ_of_ne_zero hb
      simp [Nat.pow_succ, Nat.mul_comm]
    have hq : p / 2 ^ b * 2 ^ b = 2 ^ b * (p / 2 ^ b) := Nat.mul_comm _ _
    rw [if_neg hb]
    split_ifs with h1 h2
    · omega
    · omega
    · have : (p / 2 ^ b + 1) * 2 ^ b = 2 ^ b * (p / 2 ^ b) + 2 ^ b := by ring
      omega

/-- The index `Math.floor(Math.random() * n)` is below `n` for every draw and every positive
length. -/
theorem randomIndex_lt (r : Draw) {n : Nat} (hn : 0 < n) : randomIndex r n < n := by
  have hm : r.mant.val < 2 ^ 53 := r.mant.isLt
  have hprod : r.mant.val * n + n ≤ 2 ^ 53 * n := by
    have : (r.mant.val + 1) * n ≤ 2 ^ 53 * n := Nat.mul_le_mul_right n hm
    calc r.mant.val * n + n = (r.mant.val + 1) * n := by ring
      _ ≤ 2 ^ 53 * n := this
  have hround : roundToDouble (r.mant.val * n) < n * 2 ^ 53 := by
    rcases roundToDouble_le (r.mant.val * n) with h | ⟨hb, h⟩
    · rw [h]
      omega
    · rcases excessBits_le (r.mant.val * n) (r.mant.val * n) with h0 | hle
      · exact absurd h0 hb
      · generalize excessBits (r.mant.val * n) (r.mant.val * n) = b at hb h hle
        obtain ⟨k, rfl⟩ := Nat.exists_eq_succ_of_ne_zero hb
        simp only [Nat.succ_eq_add_one, Nat.add_sub_cancel] at h
        have hk : 2 ^ 52 * 2 ^ (k + 1) = 2 ^ 53 * 2 ^ k := by
          rw [Nat.pow_succ, Nat.pow_succ]
          ring
        rw [hk] at hle
        have hkn : 2 ^ k < n := by
          by_contra hcon
          have hnk : n ≤ 2 ^ k := Nat.le_of_not_lt hcon
          have : 2 ^ 53 * n ≤ 2 ^ 53 * 2 ^ k := Nat.mul_le_mul_left _ hnk
          omega
        omega
  unfold randomIndex
  rw [Nat.shiftRight_eq_div_pow, Nat.div_lt_iff_lt_mul (Nat.two_pow_pos _)]
  calc roundToDouble (r.mant.val * n) < n * 2 ^ 53 := hround
    _ ≤ n * 2 ^ (53 + r.scale.val) := Nat.mul_le_mul_left n (Nat.pow_le_pow_right (by decide) (by omega))

/-- A pick from a non-empty pool is defined and is one of its members. -/
theorem pick_mem (r : Draw) {pool : List JSString} (h : pool ≠ []) :
    ∃ s, s ∈ pool ∧ pick pool r = some s := by
  have hlen : 0 < pool.length := List.length_pos.mpr h
  have hi : randomIndex r pool.length < pool.length := randomIndex_lt r hlen
  refine ⟨pool[randomIndex r pool.length], List.getElem_mem hi, ?_⟩
  unfold pick
  exact List.getElem?_eq_getElem hi

/-! ## Facts about `scoreTopic` -/

/-- The test `includes` is containment as a contiguous run. -/
theorem includes_iff (text term : JSString) : includes text term = true ↔ term <:+: text := by
  induction text with
  | nil =>
    cases term with
    | nil => simp [includes]
    | cons c l => simp [includes]
  | cons c rest ih =>
    have hdef : includes (c :: rest) term = (term.isPrefixOf (c :: rest) || includes rest term) :=
      rfl
    rw [hdef, Bool.or_eq_true, ih, List.isPrefixOf_iff_prefix, List.infix_cons_iff]

theorem foldl_count (p : JSString → Bool) (terms : List JSString) (start : Nat) :
    terms.foldl (fun count term => count + (if p term then 1 else 0)) start =
      start + terms.countP p := by
  induction terms generalizing start with
  | nil => simp
  | cons term terms ih =>
    rw [List.foldl_cons, ih, List.countP_cons]
    omega

theorem countHits_eq (text : JSString) (topic : Topic) :
    countHits text topic = hitCount text topic := by
  unfold countHits hitCount
  rw [foldl_count (fun term => includes text term), Nat.zero_add]
  apply List.countP_congr
  intro term _
  simp [includes_iff]

theorem hitCount_le (text : JSString) (topic : Topic) :
    hitCount text topic ≤ topic.terms.length :=
  List.countP_le_length _

theorem hitCount_pos_iff (text : JSString) (topic : Topic) :
    0 < hitCount text topic ↔ ∃ term ∈ topic.terms, term <:+: text := by
  unfold hitCount
  rw [List.countP_pos_iff]
  simp

theorem scoreTopic_eq (text : JSString) :
    scoreTopic text =
      sort compareHits
        ((personality.topics.map (scored (normalize text))).filter fun s => decide (s.hits > 0)) :=
  rfl

theorem sort_eq_insertionSort (cmp : α → α → Int) (l : List α) :
    sort cmp l = l.insertionSort (fun a b => cmp a b ≤ 0) := by
  induction l with
  | nil => rfl
  | cons a l ih =>
    show sortInsert cmp a (sort cmp l) = _
    rw [ih, List.insertionSort]
    generalize List.insertionSort (fun a b => cmp a b ≤ 0) l = m
    induction m with
    | nil => rfl
    | cons b m ihm =>
      show (if cmp a b ≤ 0 then a :: b :: m else b :: sortInsert cmp a m) = _
      rw [ihm]
      rfl

theorem sort_perm (cmp : α → α → Int) (l : List α) : (sort cmp l).Perm l := by
  rw [sort_eq_insertionSort]
  exact List.perm_insertionSort _ l

theorem compareHits_total : IsTotal Scored (fun a b => compareHits a b ≤ 0) :=
  ⟨fun a b => by unfold compareHits; omega⟩

theorem compareHits_trans : IsTrans Scored (fun a b => compareHits a b ≤ 0) :=
  ⟨fun a b c => by unfold compareHits; omega⟩

theorem sort_sorted (l : List Scored) :
    (sort compareHits l).Pairwise fun a b => b.hits ≤ a.hits := by
  rw [sort_eq_insertionSort]
  haveI := compareHits_total
  haveI := compareHits_trans
  have h := List.sorted_insertionSort (fun a b : Scored => compareHits a b ≤ 0) l
  refine List.Pairwise.imp ?_ h
  intro a b hab
  unfold compareHits at hab
  omega

/-- Stability: the elements with a given number of hits keep their order. -/
theorem sort_stable (l : List Scored) (h : Nat) :
    (sort compareHits l).filter (fun s => decide (s.hits = h)) =
      l.filter (fun s => decide (s.hits = h)) := by
  have hsub : List.Sublist (l.filter (fun s => decide (s.hits = h))) (sort compareHits l) := by
    rw [sort_eq_insertionSort]
    apply List.sublist_insertionSort
    · rw [List.pairwise_iff_forall_sublist]
      intro a b hab
      have ha : a ∈ l.filter (fun s => decide (s.hits = h)) := hab.subset (by simp)
      have hb : b ∈ l.filter (fun s => decide (s.hits = h)) := hab.subset (by simp)
      simp only [List.mem_filter, decide_eq_true_eq] at ha hb
      unfold compareHits
      omega
    · exact List.filter_sublist l
  have hsub2 : List.Sublist (l.filter (fun s => decide (s.hits = h)))
      ((sort compareHits l).filter (fun s => decide (s.hits = h))) := by
    have := hsub.filter (fun s => decide (s.hits = h))
    simpa [List.filter_filter] using this
  have hlen : ((sort compareHits l).filter (fun s => decide (s.hits = h))).length =
      (l.filter (fun s => decide (s.hits = h))).length :=
    ((sort_perm compareHits l).filter _).length_eq
  exact (hsub2.eq_of_length hlen.symm).symm

theorem sort_eq_nil {cmp : α → α → Int} {l : List α} (h : sort cmp l = []) : l = [] := by
  have := (sort_perm cmp l).length_eq
  rw [h] at this
  exact List.length_eq_zero.mp this.symm

/-- The head of the sorted scores is the first declared topic among those of greatest count. -/
theorem sort_head (n : JSString) :
    ∀ (ts : List Topic) (best : Scored) (rest : List Scored),
      sort compareHits ((ts.map (scored n)).filter fun s => decide (s.hits > 0)) = best :: rest →
      0 < best.hits ∧ ∃ pre t post, ts = pre ++ t :: post ∧ scored n t = best ∧
        (∀ u ∈ pre, (scored n u).hits < best.hits) ∧
        (∀ u ∈ post, (scored n u).hits ≤ best.hits)
  | [], best, rest, h => by simp [sort] at h
  | a :: ts, best, rest, h => by
    by_cases ha : (scored n a).hits > 0
    · have hfil : ((a :: ts).map (scored n)).filter (fun s => decide (s.hits > 0)) =
          scored n a :: (ts.map (scored n)).filter (fun s => decide (s.hits > 0)) := by
        simp [ha]
      rw [hfil] at h
      change sortInsert compareHits (scored n a)
        (sort compareHits ((ts.map (scored n)).filter fun s => decide (s.hits > 0))) =
          best :: rest at h
      cases hs : sort compareHits ((ts.map (scored n)).filter fun s => decide (s.hits > 0)) with
      | nil =>
        rw [hs] at h
        have hbest : scored n a = best := by
          simp [sortInsert] at h
          exact h.1
        have hall : ∀ u ∈ ts, (scored n u).hits ≤ best.hits := by
          intro u hu
          have hnil := sort_eq_nil hs
          by_contra hcon
          have hmem : scored n u ∈ (ts.map (scored n)).filter fun s => decide (s.hits > 0) := by
            simp only [List.mem_filter, List.mem_map, decide_eq_true_eq]
            exact ⟨⟨u, hu, rfl⟩, by omega⟩
          rw [hnil] at hmem
          exact absurd hmem (List.not_mem_nil _)
        exact ⟨hbest ▸ ha, [], a, ts, rfl, hbest, by simp, hall⟩
      | cons b m =>
        rw [hs] at h
        obtain ⟨hbpos, pre, t, post, hts, htb, hpre, hpost⟩ := sort_head n ts b m hs
        by_cases hc : compareHits (scored n a) b ≤ 0
        · have hbest : scored n a = best := by
            simp [sortInsert, hc] at h
            exact h.1
          refine ⟨hbest ▸ ha, [], a, ts, rfl, hbest, by simp, ?_⟩
          intro u hu
          have hub : (scored n u).hits ≤ b.hits := by
            rw [hts] at hu
            rcases List.mem_append.mp hu with h1 | h1
            · exact Nat.le_of_lt (hpre u h1)
            · rcases List.mem_cons.mp h1 with h2 | h2
              · rw [h2, htb]
              · exact hpost u h2
          rw [← hbest]
          unfold compareHits at hc
          omega
        · have hbest : b = best := by
            simp [sortInsert, hc] at h
            exact h.1
          subst hbest
          refine ⟨hbpos, a :: pre, t, post, by rw [hts]; rfl, htb, ?_, hpost⟩
          intro u hu
          rcases List.mem_cons.mp hu with h1 | h1
          · rw [h1]
            unfold compareHits at hc
            omega
          · exact hpre u h1
    · have hfil : ((a :: ts).map (scored n)).filter (fun s => decide (s.hits > 0)) =
          (ts.map (scored n)).filter (fun s => decide (s.hits > 0)) := by
        simp [ha]
      rw [hfil] at h
      obtain ⟨hbpos, pre, t, post, hts, htb, hpre, hpost⟩ := sort_head n ts best rest h
      refine ⟨hbpos, a :: pre, t, post, by rw [hts]; rfl, htb, ?_, hpost⟩
      intro u hu
      rcases List.mem_cons.mp hu with h1 | h1
      · rw [h1]
        omega
      · exact hpre u h1

/-- No score survives the filter exactly when no term of any topic occurs. -/
theorem scoreTopic_eq_nil_iff (text : JSString) :
    scoreTopic text = [] ↔
      ∀ t ∈ personality.topics, ∀ term ∈ t.terms, ¬ term <:+: normalize text := by
  rw [scoreTopic_eq]
  constructor
  · intro h t ht term hterm hin
    have hnil := sort_eq_nil h
    have hpos : 0 < hitCount (normalize text) t :=
      (hitCount_pos_iff _ _).mpr ⟨term, hterm, hin⟩
    have hmem : scored (normalize text) t ∈
        (personality.topics.map (scored (normalize text))).filter
          fun s => decide (s.hits > 0) := by
      simp only [List.mem_filter, List.mem_map, decide_eq_true_eq]
      refine ⟨⟨t, ht, rfl⟩, ?_⟩
      show countHits (normalize text) t > 0
      rw [countHits_eq]
      exact hpos
    rw [hnil] at hmem
    exact absurd hmem (List.not_mem_nil _)
  · intro h
    have hnil : (personality.topics.map (scored (normalize text))).filter
        (fun s => decide (s.hits > 0)) = [] := by
      rw [List.filter_eq_nil_iff]
      intro s hs
      obtain ⟨t, ht, rfl⟩ := List.mem_map.mp hs
      have : ¬ 0 < hitCount (normalize text) t := by
        rw [hitCount_pos_iff]
        rintro ⟨term, hterm, hin⟩
        exact h t ht term hterm hin
      have hc : (scored (normalize text) t).hits = hitCount (normalize text) t :=
        countHits_eq _ _
      simp only [decide_eq_true_eq, hc]
      omega
    rw [hnil]
    rfl

theorem filtered_eq_matchedTopics (n : JSString) :
    (personality.topics.map (scored n)).filter (fun s => decide (s.hits > 0)) =
      matchedTopics n := by
  unfold matchedTopics
  rw [List.filter_map]
  have hf : scored n = fun t => (⟨t, hitCount n t⟩ : Scored) := by
    funext t
    show (⟨t, countHits n t⟩ : Scored) = _
    rw [countHits_eq]
  rw [hf]
  congr 1

/-- C5: for every text, `scoreTopic` returns exactly the topics that have at least one term
occurring in the normalized text, each paired with the number of its terms that occur (between
1 and the number of its terms), ordered by hits descending, topics of equal hits in their
declaration order. -/
theorem C5_scoreTopic_spec (text : JSString) :
    (scoreTopic text).Perm (matchedTopics (normalize text)) ∧
    (∀ s ∈ scoreTopic text, s.topic ∈ personality.topics ∧
      s.hits = hitCount (normalize text) s.topic ∧ 1 ≤ s.hits ∧ s.hits ≤ s.topic.terms.length) ∧
    (scoreTopic text).Pairwise (fun a b => b.hits ≤ a.hits) ∧
    (∀ h : Nat, (scoreTopic text).filter (fun s => decide (s.hits = h)) =
      (matchedTopics (normalize text)).filter (fun s => decide (s.hits = h))) := by
  have hperm : (scoreTopic text).Perm (matchedTopics (normalize text)) := by
    rw [scoreTopic_eq, filtered_eq_matchedTopics]
    exact sort_perm _ _
  refine ⟨hperm, ?_, ?_, ?_⟩
  · intro s hs
    have hm : s ∈ matchedTopics (normalize text) := hperm.mem_iff.mp hs
    unfold matchedTopics at hm
    obtain ⟨t, ht, rfl⟩ := List.mem_map.mp hm
    simp only [List.mem_filter, decide_eq_true_eq] at ht
    exact ⟨ht.1, rfl, ht.2, hitCount_le _ _⟩
  · rw [scoreTopic_eq]
    exact sort_sorted _
  · intro h
    rw [scoreTopic_eq, filtered_eq_matchedTopics]
    exact sort_stable _ h

/-! ## Facts about the greeting pattern -/

theorem not_isWordUnit_of_isSpace {c : Nat} (h : isSpace c = true) : isWordUnit c = false := by
  simp [isSpace] at h
  simp [isWordUnit, isLowerAZ, isDigit09]
  omega

theorem isSpace_of_keeps_not_word {c : Nat} (hk : keeps c = true) (hw : isWordUnit c = false) :
    isSpace c = true := by
  simp [keeps] at hk
  simp [isWordUnit] at hw
  rcases hk with (h | h) | h
  · simp [h] at hw
  · simp [h] at hw
  · exact h

/-- After a greeting word, `\b` holds exactly when no word character follows. -/
theorem wordBoundaryAt_after {w : JSString} (hw : w ∈ greetingWords) (rest : JSString) :
    wordBoundaryAt (w ++ rest) w.length =
      match rest with
      | [] => true
      | c :: _ => !isWordUnit c := by
  have h1 : utf16 "hi" = [104, 105] := by decide
  have h2 : utf16 "hello" = [104, 101, 108, 108, 111] := by decide
  have h3 : utf16 "hey" = [104, 101, 121] := by decide
  have h4 : utf16 "yo" = [121, 111] := by decide
  have h5 : utf16 "sup" = [115, 117, 112] := by decide
  simp only [greetingWords, h1, h2, h3, h4, h5, List.mem_cons, List.mem_singleton,
    List.not_mem_nil, or_false] at hw
  rcases hw with rfl | rfl | rfl | rfl | rfl <;> cases rest <;>
    simp [wordBoundaryAt, isWordUnit, isLowerAZ, isDigit09]

theorem greetingTest_of_followed {s w : JSString} (hw : w ∈ greetingWords)
    (h : followedByEndOrSpace s w = true) : w.isPrefixOf s = true ∧
      wordBoundaryAt s w.length = true := by
  unfold followedByEndOrSpace at h
  rw [Bool.and_eq_true] at h
  refine ⟨h.1, ?_⟩
  obtain ⟨rest, rfl⟩ := List.isPrefixOf_iff_prefix.mp h.1
  have hnext := h.2
  rw [List.drop_left] at hnext
  rw [wordBoundaryAt_after hw]
  cases rest with
  | nil => rfl
  | cons c tail =>
    have : isSpace c = true := hnext
    simp [not_isWordUnit_of_isSpace this]

theorem followed_of_greetingTest {s w : JSString} (hw : w ∈ greetingWords)
    (hs : ∀ c ∈ s, keeps c = true) (hp : w.isPrefixOf s = true)
    (hb : wordBoundaryAt s w.length = true) : followedByEndOrSpace s w = true := by
  unfold followedByEndOrSpace
  rw [Bool.and_eq_true]
  refine ⟨hp, ?_⟩
  obtain ⟨rest, rfl⟩ := List.isPrefixOf_iff_prefix.mp hp
  rw [wordBoundaryAt_after hw] at hb
  rw [List.drop_left]
  cases rest with
  | nil => rfl
  | cons c tail =>
    have hc : keeps c = true := hs c (by simp)
    have hnw : isWordUnit c = false := by simpa using hb
    exact isSpace_of_keeps_not_word hc hnw

/-- On any text, a greeting word followed by the end or by whitespace makes the pattern
match. -/
theorem greetingTest_of_startsWithGreeting {s : JSString} (h : startsWithGreeting s = true) :
    greetingTest s = true := by
  unfold startsWithGreeting at h
  obtain ⟨w, hw, hf⟩ := List.any_eq_true.mp h
  unfold greetingTest
  rw [List.any_eq_true]
  refine ⟨w, hw, ?_⟩
  have := greetingTest_of_followed hw hf
  rw [Bool.and_eq_true]
  exact this

/-- On a normalized text the pattern matches in no other case. -/
theorem greetingTest_normalize_iff (x : JSString) :
    greetingTest (normalize x) = true ↔ startsWithGreeting (normalize x) = true := by
  constructor
  · intro h
    unfold greetingTest at h
    obtain ⟨w, hw, hf⟩ := List.any_eq_true.mp h
    rw [Bool.and_eq_true] at hf
    unfold startsWithGreeting
    rw [List.any_eq_true]
    exact ⟨w, hw, followed_of_greetingTest hw (fun c hc => keeps_of_mem_normalize hc) hf.1 hf.2⟩
  · exact greetingTest_of_startsWithGreeting

/-! ## Facts about `craftReply` -/

theorem craftReply_greeting (history : List Entry) (r : Draw) {input : JSString}
    (h : greetingTest (normalize input) = true) :
    craftReply history r input = pick personality.greetings r := by
  simp [craftReply, h]

theorem craftReply_topic (history : List Entry) (r : Draw) {input : JSString}
    {best : Scored} {rest : List Scored} (h : greetingTest (normalize input) = false)
    (hs : scoreTopic (normalize input) = best :: rest) :
    craftReply history r input = pick best.topic.replies r := by
  simp [craftReply, h, hs]

theorem craftReply_unmatched (history : List Entry) (r : Draw) {input : JSString}
    (h : greetingTest (normalize input) = false) (hs : scoreTopic (normalize input) = []) :
    craftReply history r input =
      if history.length ≠ 0 ∧
        (history[history.length - 1]?.map Entry.variant) = some Variant.bot
      then some continuation else pick personality.fallbacks r := by
  simp [craftReply, h, hs]

theorem greetings_ne_nil : personality.greetings ≠ [] := by
  simp [personality]

theorem fallbacks_ne_nil : personality.fallbacks ≠ [] := by
  simp [personality]

theorem replies_ne_nil {t : Topic} (h : t ∈ personality.topics) : t.replies ≠ [] := by
  simp only [personality, List.mem_cons, List.mem_singleton, List.not_mem_nil, or_false] at h
  rcases h with rfl | rfl | rfl | rfl <;> simp [planning, ideas, motivation, tech]

theorem last_is_bot_iff (history : List Entry) :
    (history.length ≠ 0 ∧
      (history[history.length - 1]?.map Entry.variant) = some Variant.bot) ↔
      history.getLast?.map Entry.variant = some Variant.bot := by
  rw [List.getLast?_eq_getElem?]
  constructor
  · exact fun h => h.2
  · intro h
    refine ⟨?_, h⟩
    intro h0
    rw [List.length_eq_zero.mp h0] at h
    simp at h

/-- The topic reply branch: the best topic and a reply of it. -/
theorem craftReply_best (history : List Entry) (r : Draw) {input : JSString}
    (hg : greetingTest (normalize input) = false) {best : Scored} {rest : List Scored}
    (hs : scoreTopic (normalize input) = best :: rest) :
    ∃ pre t post, personality.topics = pre ++ t :: post ∧
      (∀ u ∈ pre, hitCount (normalize input) u < hitCount (normalize input) t) ∧
      (∀ u ∈ post, hitCount (normalize input) u ≤ hitCount (normalize input) t) ∧
      ∃ s, s ∈ t.replies ∧ craftReply history r input = some s := by
  have hs2 := hs
  rw [scoreTopic_eq, normalize_normalize] at hs2
  obtain ⟨_, pre, t, post, hts, htb, hpre, hpost⟩ :=
    sort_head (normalize input) personality.topics best rest hs2
  have hh : ∀ u, (scored (normalize input) u).hits = hitCount (normalize input) u :=
    fun u => countHits_eq _ u
  have hb : best.hits = hitCount (normalize input) t := by rw [← htb, hh]
  refine ⟨pre, t, post, hts, ?_, ?_, ?_⟩
  · intro u hu
    have := hpre u hu
    rw [hh, hb] at this
    exact this
  · intro u hu
    have := hpost u hu
    rw [hh, hb] at this
    exact this
  · have htmem : t ∈ personality.topics := by
      rw [hts]
      simp
    obtain ⟨s, hsmem, hpick⟩ := pick_mem r (replies_ne_nil htmem)
    refine ⟨s, hsmem, ?_⟩
    rw [craftReply_topic history r hg hs, ← htb]
    exact hpick

/-- Every reply is defined and comes from one of the four sources. -/
theorem craftReply_cases (history : List Entry) (r : Draw) (input : JSString) :
    ∃ s, craftReply history r input = some s ∧
      (s ∈ personality.greetings ∨ (∃ t ∈ personality.topics, s ∈ t.replies) ∨
        s ∈ personality.fallbacks ∨
        (s = continuation ∧ history.getLast?.map Entry.variant = some Variant.bot)) := by
  cases hg : greetingTest (normalize input) with
  | true =>
    obtain ⟨s, hsmem, hpick⟩ := pick_mem r greetings_ne_nil
    exact ⟨s, by rw [craftReply_greeting history r hg, hpick], Or.inl hsmem⟩
  | false =>
    cases hs : scoreTopic (normalize input) with
    | cons best rest =>
      obtain ⟨pre, t, post, hts, _, _, s, hsmem, hreply⟩ := craftReply_best history r hg hs
      refine ⟨s, hreply, Or.inr (Or.inl ⟨t, ?_, hsmem⟩)⟩
      rw [hts]
      simp
    | nil =>
      rw [craftReply_unmatched history r hg hs]
      by_cases hb : history.getLast?.map Entry.variant = some Variant.bot
      · refine ⟨continuation, ?_, Or.inr (Or.inr (Or.inr ⟨rfl, hb⟩))⟩
        rw [if_pos ((last_is_bot_iff history).mpr hb)]
      · obtain ⟨s, hsmem, hpick⟩ := pick_mem r fallbacks_ne_nil
        refine ⟨s, ?_, Or.inr (Or.inr (Or.inl hsmem))⟩
        rw [if_neg (fun h => hb ((last_is_bot_iff history).mp h)), hpick]

theorem pools_strings_ne_nil :
    (∀ s ∈ personality.greetings, s ≠ []) ∧ (∀ s ∈ personality.fallbacks, s ≠ []) ∧
      (∀ t ∈ personality.topics, ∀ s ∈ t.replies, s ≠ []) ∧ continuation ≠ [] := by
  decide

theorem continuation_not_in_pools :
    continuation ∉ personality.greetings ∧ continuation ∉ personality.fallbacks ∧
      (∀ t ∈ personality.topics, continuation ∉ t.replies) := by
  decide

/-! ## The claims -/

/-- C1: when the normalized input does not match the greeting pattern and contains a term of
some topic, `craftReply` returns, for every history and every draw, a reply of the topic with
the greatest hit count, the first declared one among those tied: every topic declared before
it has fewer hits and every topic declared after it has no more. "Let's make a roadmap for Q3"
yields a `planning` reply, and "debugging my plan" (two hits for `tech`, one for `planning`)
yields a `tech` reply. -/
theorem C1_topic_reply :
    (∀ (input : JSString) (history : List Entry) (r : Draw),
      greetingTest (normalize input) = false →
      (∃ t ∈ personality.topics, ∃ term ∈ t.terms, term <:+: normalize input) →
      ∃ pre t post, personality.topics = pre ++ t :: post ∧
        (∀ u ∈ pre, hitCount (normalize input) u < hitCount (normalize input) t) ∧
        (∀ u ∈ post, hitCount (normalize input) u ≤ hitCount (normalize input) t) ∧
        ∃ s, s ∈ t.replies ∧ craftReply history r input = some s) ∧
    (∀ (history : List Entry) (r : Draw), ∃ s, s ∈ planning.replies ∧
      craftReply history r (utf16 "Let's make a roadmap for Q3") = some s) ∧
    (hitCount (normalize (utf16 "debugging my plan")) tech = 2 ∧
      hitCount (normalize (utf16 "debugging my plan")) planning = 1 ∧
      ∀ (history : List Entry) (r : Draw), ∃ s, s ∈ tech.replies ∧
        craftReply history r (utf16 "debugging my plan") = some s) := by
  refine ⟨?_, ?_, ?_, ?_, ?_⟩
  · intro input history r hg ht
    cases hs : scoreTopic (normalize input) with
    | nil =>
      obtain ⟨t, htm, term, hterm, hin⟩ := ht
      have hnone := (scoreTopic_eq_nil_iff (normalize input)).mp hs
      rw [normalize_normalize] at hnone
      exact absurd hin (hnone t htm term hterm)
    | cons best rest => exact craftReply_best history r hg hs
  · intro history r
    have hg : greetingTest (normalize (utf16 "Let's make a roadmap for Q3")) = false := by decide
    have hs : scoreTopic (normalize (utf16 "Let's make a roadmap for Q3")) = [⟨planning, 1⟩] := by
      decide
    rw [craftReply_topic history r hg hs]
    exact pick_mem r (by simp [planning])
  · rw [← countHits_eq]
    decide
  · rw [← countHits_eq]
    decide
  · intro history r
    have hg : greetingTest (normalize (utf16 "debugging my plan")) = false := by decide
    have hs : scoreTopic (normalize (utf16 "debugging my plan")) =
        [⟨tech, 2⟩, ⟨planning, 1⟩] := by
      decide
    rw [craftReply_topic history r hg hs]
    exact pick_mem r (by simp [tech])

/-- The first part of C1 at the input "debugging my plan", the empty history and the draw
`0.5`. -/
theorem C1_topic_reply_witness :
    greetingTest (normalize (utf16 "debugging my plan")) = false ∧
    (∃ t ∈ personality.topics, ∃ term ∈ t.terms,
      term <:+: normalize (utf16 "debugging my plan")) ∧
    ∃ pre t post, personality.topics = pre ++ t :: post ∧
      (∀ u ∈ pre, hitCount (normalize (utf16 "debugging my plan")) u <
        hitCount (normalize (utf16 "debugging my plan")) t) ∧
      (∀ u ∈ post, hitCount (normalize (utf16 "debugging my plan")) u ≤
        hitCount (normalize (utf16 "debugging my plan")) t) ∧
      ∃ s, s ∈ t.replies ∧ craftReply [] half (utf16 "debugging my plan") = some s :=
  have hg : greetingTest (normalize (utf16 "debugging my plan")) = false := by decide
  have ht : ∃ t ∈ personality.topics, ∃ term ∈ t.terms,
      term <:+: normalize (utf16 "debugging my plan") :=
    ⟨tech, by simp [personality], utf16 "bug", by simp [tech],
      (includes_iff _ _).mp (by decide)⟩
  ⟨hg, ht, C1_topic_reply.1 (utf16 "debugging my plan") [] half hg ht⟩

/-- C2: when the normalized input starts with one of `hi`, `hello`, `hey`, `yo`, `sup`
immediately followed by the end of the text or by a whitespace character, `craftReply` returns
a member of `personality.greetings`, for every history and every draw, topic terms or not; on
a normalized text the greeting pattern matches in exactly this case. "Hello there" and
"Hi, I need a plan" (which contains the term `plan`) are answered by a greeting. -/
theorem C2_greeting_reply :
    (∀ (input : JSString) (history : List Entry) (r : Draw),
      startsWithGreeting (normalize input) = true →
      ∃ s, s ∈ personality.greetings ∧ craftReply history r input = some s) ∧
    (∀ input : JSString,
      greetingTest (normalize input) = true ↔ startsWithGreeting (normalize input) = true) ∧
    (∀ (history : List Entry) (r : Draw), ∃ s, s ∈ personality.greetings ∧
      craftReply history r (utf16 "Hello there") = some s) ∧
    (scoreTopic (utf16 "Hi, I need a plan") = [⟨planning, 1⟩] ∧
      ∀ (history : List Entry) (r : Draw), ∃ s, s ∈ personality.greetings ∧
        craftReply history r (utf16 "Hi, I need a plan") = some s) := by
  have main : ∀ (input : JSString) (history : List Entry) (r : Draw),
      startsWithGreeting (normalize input) = true →
      ∃ s, s ∈ personality.greetings ∧ craftReply history r input = some s := by
    intro input history r h
    rw [craftReply_greeting history r (greetingTest_of_startsWithGreeting h)]
    exact pick_mem r greetings_ne_nil
  refine ⟨main, greetingTest_normalize_iff, ?_, ?_, ?_⟩
  · intro history r
    exact main _ history r (by decide)
  · decide
  · intro history r
    exact main _ history r (by decide)

/-- The first part of C2 at the input "Hello there", the empty history and the draw `0.5`. -/
theorem C2_greeting_reply_witness :
    startsWithGreeting (normalize (utf16 "Hello there")) = true ∧
    ∃ s, s ∈ personality.greetings ∧ craftReply [] half (utf16 "Hello there") = some s :=
  ⟨by decide, C2_greeting_reply.1 (utf16 "Hello there") [] half (by decide)⟩

/-- C3: when the normalized input matches neither the greeting pattern nor any topic term,
`craftReply` returns exactly the continuation string, whatever the draw, if the history is not
empty and its last entry is of bot origin, and a member of `personality.fallbacks` otherwise;
and for any input, two histories with the same last entry give the same reply. -/
theorem C3_unmatched_reply (input : JSString) (history : List Entry) (r : Draw)
    (hg : greetingTest (normalize input) = false)
    (ht : ∀ t ∈ personality.topics, ∀ term ∈ t.terms, ¬ term <:+: normalize input) :
    continuation = utf16 "Let's build on that — what part should we tackle first?" ∧
    (history.getLast?.map Entry.variant = some Variant.bot →
      craftReply history r input = some continuation) ∧
    (history.getLast?.map Entry.variant ≠ some Variant.bot →
      ∃ s, s ∈ personality.fallbacks ∧ craftReply history r input = some s) ∧
    (∀ (earlier earlier' : List Entry) (last : Entry) (input' : JSString) (r' : Draw),
      craftReply (earlier ++ [last]) r' input' = craftReply (earlier' ++ [last]) r' input') := by
  have hs : scoreTopic (normalize input) = [] := by
    rw [scoreTopic_eq_nil_iff, normalize_normalize]
    exact ht
  refine ⟨rfl, ?_, ?_, ?_⟩
  · intro hb
    rw [craftReply_unmatched history r hg hs, if_pos ((last_is_bot_iff history).mpr hb)]
  · intro hb
    rw [craftReply_unmatched history r hg hs,
      if_neg (fun h => hb ((last_is_bot_iff history).mp h))]
    exact pick_mem r fallbacks_ne_nil
  · intro earlier earlier' last input' r'
    simp [craftReply]

/-- C3 at the empty input, a history of two entries that ends with a bot entry, and the draw
`0.5`. -/
theorem C3_unmatched_reply_witness :
    greetingTest (normalize []) = false ∧
    (∀ t ∈ personality.topics, ∀ term ∈ t.terms, ¬ term <:+: normalize []) ∧
    craftReply [userEntry (utf16 "plan") [], botEntry none []] half [] = some continuation :=
  have hg : greetingTest (normalize []) = false := by decide
  have ht : ∀ t ∈ personality.topics, ∀ term ∈ t.terms, ¬ term <:+: normalize [] :=
    (scoreTopic_eq_nil_iff []).mp (by decide)
  ⟨hg, ht, (C3_unmatched_reply [] [userEntry (utf16 "plan") [], botEntry none []] half hg ht).2.1
    (by decide)⟩

/-- C4: for every input, every history and every draw, the index computed for each pool of the
personality (greetings, fallbacks, the replies of each topic) is within its bounds, every pool
is non-empty and holds non-empty strings only, and `craftReply` returns a defined, non-empty
string. -/
theorem C4_reply_defined (input : JSString) (history : List Entry) (r : Draw) :
    (personality.greetings ≠ [] ∧
      randomIndex r personality.greetings.length < personality.greetings.length) ∧
    (personality.fallbacks ≠ [] ∧
      randomIndex r personality.fallbacks.length < personality.fallbacks.length) ∧
    (∀ t ∈ personality.topics,
      t.replies ≠ [] ∧ randomIndex r t.replies.length < t.replies.length) ∧
    ∃ s, craftReply history r input = some s ∧ s ≠ [] := by
  refine ⟨⟨greetings_ne_nil, randomIndex_lt r (List.length_pos.mpr greetings_ne_nil)⟩,
    ⟨fallbacks_ne_nil, randomIndex_lt r (List.length_pos.mpr fallbacks_ne_nil)⟩, ?_, ?_⟩
  · intro t ht
    exact ⟨replies_ne_nil ht, randomIndex_lt r (List.length_pos.mpr (replies_ne_nil ht))⟩
  · obtain ⟨s, hs, hcase⟩ := craftReply_cases history r input
    refine ⟨s, hs, ?_⟩
    obtain ⟨hgr, hfb, htop, hcont⟩ := pools_strings_ne_nil
    rcases hcase with h | ⟨t, ht, h⟩ | h | ⟨h, _⟩
    · exact hgr s h
    · exact htop t ht s h
    · exact hfb s h
    · rw [h]
      exact hcont

theorem greetingWords_eq :
    greetingWords =
      [[104, 105], [104, 101, 108, 108, 111], [104, 101, 121], [121, 111], [115, 117, 112]] := by
  decide

/-- The pattern is anchored: a text that begins with whitespace does not match. -/
theorem greetingTest_of_space {s : JSString} {c : Nat} (h : s.head? = some c)
    (hc : isSpace c = true) : greetingTest s = false := by
  cases s with
  | nil => simp at h
  | cons d rest =>
    have hd : d = c := by simpa using h
    subst hd
    have h104 : ¬ 104 = d := by
      rintro rfl
      revert hc
      decide
    have h121 : ¬ 121 = d := by
      rintro rfl
      revert hc
      decide
    have h115 : ¬ 115 = d := by
      rintro rfl
      revert hc
      decide
    simp [greetingTest, greetingWords_eq, List.isPrefixOf, h104, h121, h115]

/-- A code unit that is no letter `a`-`z` and no digit is left as whitespace by the
replacement: kept if it is whitespace, replaced by a space if not. -/
theorem isSpace_replaced {c : Nat} (h : (isLowerAZ c || isDigit09 c) = false) :
    isSpace (if keeps c then c else 32) = true := by
  by_cases hk : keeps c = true
  · rw [if_pos hk]
    have hk' := hk
    simp only [keeps, h, Bool.false_or] at hk'
    exact hk'
  · rw [if_neg hk]
    decide

theorem greetings_apart :
    (∀ s ∈ personality.fallbacks, s ∉ personality.greetings) ∧
      (∀ t ∈ personality.topics, ∀ s ∈ t.replies, s ∉ personality.greetings) ∧
      continuation ∉ personality.greetings := by
  decide

/-- C8, as the code has it: `normalize` strips nothing. Its output has the length of the
lowercased input, and its first and last code units are those of the lowercased input, kept
when in `[a-z0-9\s]` and replaced by a space otherwise, so that the output begins (ends)
with a whitespace character whenever the lowercased input begins (ends) with a code unit that
is no letter `a`-`z` and no digit. When the normalized text begins with a whitespace
character the greeting pattern, anchored at the start, does not match, and `craftReply`
returns a reply that is no greeting; `craftReply(" hello")` and `craftReply("!hello")` return
a member of `personality.fallbacks` on the empty history. -/
theorem C8_normalize_keeps_ends :
    (∀ input : JSString,
      (normalize input).head? =
        (toLowerCase input).head?.map (fun c => if keeps c then c else 32) ∧
      (normalize input).getLast? =
        (toLowerCase input).getLast?.map (fun c => if keeps c then c else 32) ∧
      (normalize input).length = (toLowerCase input).length) ∧
    (∀ (input : JSString) (history : List Entry) (r : Draw) (c : Nat),
      (normalize input).head? = some c → isSpace c = true →
      greetingTest (normalize input) = false ∧
        ∃ s, craftReply history r input = some s ∧ s ∉ personality.greetings) ∧
    (∀ r : Draw, ∃ s, s ∈ personality.fallbacks ∧ craftReply [] r (utf16 " hello") = some s) ∧
    (∀ r : Draw, ∃ s, s ∈ personality.fallbacks ∧ craftReply [] r (utf16 "!hello") = some s) ∧
    (∀ (input : JSString) (c : Nat), (isLowerAZ c || isDigit09 c) = false →
      ((toLowerCase input).head? = some c →
        (normalize input).head?.map isSpace = some true) ∧
      ((toLowerCase input).getLast? = some c →
        (normalize input).getLast?.map isSpace = some true)) := by
  have fallback : ∀ (input : JSString) (r : Draw), greetingTest (normalize input) = false →
      scoreTopic (normalize input) = [] →
      ∃ s, s ∈ personality.fallbacks ∧ craftReply [] r input = some s := by
    intro input r hg hs
    rw [craftReply_unmatched [] r hg hs]
    simpa using pick_mem r fallbacks_ne_nil
  have ends : ∀ input : JSString,
      (normalize input).head? =
        (toLowerCase input).head?.map (fun c => if keeps c then c else 32) ∧
      (normalize input).getLast? =
        (toLowerCase input).getLast?.map (fun c => if keeps c then c else 32) := by
    intro input
    constructor
    · simp [normalize, replaceNonAlnum, List.head?_map]
    · simp [normalize, replaceNonAlnum, List.getLast?_map]
  refine ⟨?_, ?_, ?_, ?_, ?_⟩
  · intro input
    refine ⟨?_, ?_, ?_⟩
    · simp [normalize, replaceNonAlnum, List.head?_map]
    · simp [normalize, replaceNonAlnum, List.getLast?_map]
    · simp [normalize, replaceNonAlnum]
  · intro input history r c hhead hc
    have hg := greetingTest_of_space hhead hc
    refine ⟨hg, ?_⟩
    obtain ⟨s, hs, hcase⟩ := craftReply_cases history r input
    refine ⟨s, hs, ?_⟩
    obtain ⟨hfb, htop, hcont⟩ := greetings_apart
    rcases hcase with h | ⟨t, ht, h⟩ | h | ⟨h, _⟩
    · cases hsc : scoreTopic (normalize input) with
      | cons best rest =>
        obtain ⟨pre, t, post, hts, _, _, s2, hs2mem, hreply⟩ := craftReply_best history r hg hsc
        have : s = s2 := by
          rw [hs] at hreply
          exact Option.some.inj hreply
        subst this
        exact htop t (by rw [hts]; simp) s hs2mem
      | nil =>
        rw [craftReply_unmatched history r hg hsc] at hs
        split_ifs at hs with hb
        · have : continuation = s := Option.some.inj hs
          rw [← this]
          exact hcont
        · obtain ⟨s3, hs3mem, hs3⟩ := pick_mem r fallbacks_ne_nil
          rw [hs3] at hs
          have : s3 = s := Option.some.inj hs
          rw [← this]
          exact hfb s3 hs3mem
    · exact htop t ht s h
    · exact hfb s h
    · rw [h]
      exact hcont
  · intro r
    exact fallback _ r (by decide) (by decide)
  · intro r
    exact fallback _ r (by decide) (by decide)
  · intro input c hc
    have hsp := isSpace_replaced hc
    constructor
    · intro h
      rw [(ends input).1, h]
      simpa using hsp
    · intro h
      rw [(ends input).2, h]
      simpa using hsp

/-- The second part of the amended C8 at the input "!hello", the empty history and the draw
`0.5`. -/
theorem C8_normalize_keeps_ends_witness :
    (normalize (utf16 "!hello")).head? = some 32 ∧ isSpace 32 = true ∧
    greetingTest (normalize (utf16 "!hello")) = false ∧
    ∃ s, craftReply [] half (utf16 "!hello") = some s ∧ s ∉ personality.greetings :=
  ⟨by decide, by decide,
    C8_normalize_keeps_ends.2.1 (utf16 "!hello") [] half 32 (by decide) (by decide)⟩

/-- C8 as stated fails: `normalize(" hello")` begins with a space and `normalize("hello ")`
ends with one; on `" hello"` and `"!hello"` the greeting pattern does not match, and with the
empty history and the draw `0.5` the reply is the second fallback, which is no greeting. -/
theorem C8_counterexample :
    (normalize (utf16 " hello")).head? = some 32 ∧
    (normalize (utf16 "hello ")).getLast? = some 32 ∧
    isSpace 32 = true ∧
    normalize (utf16 "!hello") = utf16 " hello" ∧
    greetingTest (normalize (utf16 " hello")) = false ∧
    greetingTest (normalize (utf16 "!hello")) = false ∧
    craftReply [] half (utf16 " hello") = personality.fallbacks[1]? ∧
    craftReply [] half (utf16 "!hello") = personality.fallbacks[1]? ∧
    (∀ s ∈ personality.greetings, personality.fallbacks[1]? ≠ some s) := by
  decide

/-- C9, as the code has it: the clear handler leaves `history` empty, for every prior state;
the fixed message of bot origin goes to `appendMessage`, which adds a node to the chat log
(after its first child, the only one kept) and pushes nothing on `history`. The first
unmatched reply computed on the cleared history is therefore a member of
`personality.fallbacks`, not the continuation string. -/
theorem C9_clear_empties_history (st : State) (time : JSString) (input : JSString) (r : Draw)
    (hg : greetingTest (normalize input) = false)
    (hs : scoreTopic (normalize input) = []) :
    (clearClick st time).history = [] ∧
    (clearClick st time).chatLog =
      st.chatLog.take 1 ++ [createMessage st.nextId (clearedMessage time)] ∧
    (clearedMessage time).variant = Variant.bot ∧
    (clearedMessage time).text = some (utf16 "All cleared! What's next on your mind?") ∧
    (clearClick st time).chatInput = [] ∧
    ∃ s, s ∈ personality.fallbacks ∧ s ≠ continuation ∧
      craftReply (clearClick st time).history r input = some s := by
  refine ⟨rfl, rfl, rfl, rfl, rfl, ?_⟩
  obtain ⟨s, hmem, hpick⟩ := pick_mem r fallbacks_ne_nil
  refine ⟨s, hmem, ?_, ?_⟩
  · rintro rfl
    exact continuation_not_in_pools.2.1 hmem
  · show craftReply [] r input = some s
    rw [craftReply_unmatched [] r hg hs]
    simpa using hpick

/-- The amended C9 at the sample state, the empty input and the draw `0.5`. -/
theorem C9_clear_empties_history_witness :
    greetingTest (normalize []) = false ∧ scoreTopic (normalize []) = [] ∧
    (clearClick sampleState (utf16 "10:05")).history = [] ∧
    ∃ s, s ∈ personality.fallbacks ∧ s ≠ continuation ∧
      craftReply (clearClick sampleState (utf16 "10:05")).history half [] = some s :=
  have h := C9_clear_empties_history sampleState (utf16 "10:05") [] half (by decide) (by decide)
  ⟨by decide, by decide, h.1, h.2.2.2.2.2⟩

/-- C9 as stated fails: from the sample state, whose history has two entries, the clear
handler leaves a history of length 0, not 1, while the cleared message is the second child of
the chat log; the unmatched reply computed on it is a fallback and not the continuation
string. -/
theorem C9_counterexample :
    sampleState.history.length = 2 ∧
    (clearClick sampleState (utf16 "10:05")).history = [] ∧
    (clearClick sampleState (utf16 "10:05")).history.length ≠ 1 ∧
    (clearClick sampleState (utf16 "10:05")).chatLog.length = 2 ∧
    craftReply (clearClick sampleState (utf16 "10:05")).history half [] =
      personality.fallbacks[1]? ∧
    craftReply (clearClick sampleState (utf16 "10:05")).history half [] ≠ some continuation := by
  decide

/-! ## Facts about the handlers -/

theorem handleEvent_history (st : State) (e : Event) :
    (handleEvent st e).history = if e.isClear then [] else st.history := by
  cases e <;> rfl

/-- While a run waits, the history is left as it is or, by a clear click, emptied. -/
theorem events_history (during : List Event) :
    ∀ st : State, (during.foldl handleEvent st).history =
      if during.any Event.isClear then [] else st.history := by
  induction during with
  | nil => intro st; rfl
  | cons e during ih =>
    intro st
    rw [List.foldl_cons, ih, handleEvent_history, List.any_cons]
    cases e.isClear <;> simp

theorem start_history (st : State) (message t1 t2 : JSString) :
    (handleUserMessageStart st message t1 t2).1.history = st.history ++ [userEntry message t1] :=
  rfl

theorem atCall_history (st : State) (message t1 t2 : JSString) (during : List Event) :
    (during.foldl handleEvent (handleUserMessageStart st message t1 t2).1).history =
      if during.any Event.isClear then [] else st.history ++ [userEntry message t1] := by
  rw [events_history, start_history]

theorem atCall_not_bot (st : State) (message t1 t2 : JSString) (during : List Event) :
    (during.foldl handleEvent (handleUserMessageStart st message t1 t2).1).history.getLast?.map
      Entry.variant ≠ some Variant.bot := by
  rw [atCall_history]
  cases during.any Event.isClear <;> simp [userEntry]

theorem handleUserMessage_history (st : State) (message t1 t2 : JSString)
    (during : List Event) (t3 : JSString) (r : Draw) :
    (handleUserMessage st message t1 t2 during t3 r).history =
      (during.foldl handleEvent (handleUserMessageStart st message t1 t2).1).history ++
        [botEntry (craftReply
          (during.foldl handleEvent (handleUserMessageStart st message t1 t2).1).history
          r message) t3] :=
  rfl

/-- A reply computed on a history that does not end with a bot entry is never the continuation
string. -/
theorem craftReply_not_continuation (history : List Entry) (message : JSString) (r : Draw)
    (h : history.getLast?.map Entry.variant ≠ some Variant.bot) :
    ∃ s, craftReply history r message = some s ∧ s ≠ continuation ∧
      (s ∈ personality.greetings ∨ (∃ t ∈ personality.topics, s ∈ t.replies) ∨
        s ∈ personality.fallbacks) := by
  obtain ⟨s, hs, hcase⟩ := craftReply_cases history r message
  obtain ⟨hgr, hfb, htop⟩ := continuation_not_in_pools
  refine ⟨s, hs, ?_, ?_⟩
  · rintro rfl
    rcases hcase with h1 | ⟨t, ht, h1⟩ | h1 | ⟨_, h1⟩
    · exact hgr h1
    · exact htop t ht h1
    · exact hfb h1
    · exact h h1
  · rcases hcase with h1 | h1 | h1 | ⟨_, h1⟩
    · exact Or.inl h1
    · exact Or.inr (Or.inl h1)
    · exact Or.inr (Or.inr h1)
    · exact absurd h1 h

/-- The entries of the history after one action: those it had, a user entry, or a bot entry
whose text is not the continuation string. -/
theorem handleAction_history (st : State) (a : Action) :
    ∀ e ∈ (handleAction st a).history,
      e ∈ st.history ∨ e.variant = Variant.user ∨ e.text ≠ some continuation := by
  intro e he
  cases a with
  | event ev =>
    left
    have hh : (handleAction st (Action.event ev)).history =
        if ev.isClear then [] else st.history := handleEvent_history st ev
    rw [hh] at he
    cases hc : ev.isClear
    · simpa [hc] using he
    · simp [hc] at he
  | message message t1 t2 during t3 r =>
    have hh : (handleAction st (Action.message message t1 t2 during t3 r)).history =
        (handleUserMessage st message t1 t2 during t3 r).history := rfl
    rw [hh, handleUserMessage_history] at he
    obtain ⟨s, hs, hne, _⟩ := craftReply_not_continuation _ message r
      (atCall_not_bot st message t1 t2 during)
    rw [hs, atCall_history] at he
    rcases List.mem_append.mp he with h1 | h1
    · cases hc : during.any Event.isClear
      · rw [hc] at h1
        simp only [Bool.false_eq_true, if_false] at h1
        rcases List.mem_append.mp h1 with h2 | h2
        · exact Or.inl h2
        · have : e = userEntry message t1 := by simpa using h2
          rw [this]
          exact Or.inr (Or.inl rfl)
      · rw [hc] at h1
        simp at h1
    · have : e = botEntry (some s) t3 := by simpa using h1
      rw [this]
      right
      right
      intro hcon
      exact hne (Option.some.inj hcon)

theorem handleAll_history (actions : List Action) :
    ∀ st : State, ∀ e ∈ (handleAll st actions).history,
      e ∈ st.history ∨ e.variant = Variant.user ∨ e.text ≠ some continuation := by
  induction actions with
  | nil => intro st e he; exact Or.inl he
  | cons a actions ih =>
    intro st e he
    have hstep : handleAll st (a :: actions) = handleAll (handleAction st a) actions := rfl
    rw [hstep] at he
    rcases ih _ e he with h | h | h
    · exact handleAction_history st a e h
    · exact Or.inr (Or.inl h)
    · exact Or.inr (Or.inr h)

/-! ## The chat log and the identity of its nodes -/

theorem wf_push {log : List Node} {k : Nat}
    (h : (log.map Node.id).Nodup ∧ ∀ n ∈ log, n.id < k) {node : Node} (hid : node.id = k) :
    ((log ++ [node]).map Node.id).Nodup ∧ ∀ n ∈ log ++ [node], n.id < k + 1 := by
  constructor
  · rw [List.map_append, List.nodup_append]
    refine ⟨h.1, by simp, ?_⟩
    intro i hi hi'
    obtain ⟨n, hn, rfl⟩ := List.mem_map.mp hi
    have h1 := h.2 n hn
    have h2 : n.id = node.id := by simpa using hi'
    omega
  · intro n hn
    rcases List.mem_append.mp hn with h1 | h1
    · exact Nat.lt_succ_of_lt (h.2 n h1)
    · have : n = node := by simpa using h1
      rw [this, hid]
      exact Nat.lt_succ_self k

theorem wf_sublist {log log' : List Node} {k : Nat}
    (h : (log.map Node.id).Nodup ∧ ∀ n ∈ log, n.id < k) (hs : List.Sublist log' log) :
    (log'.map Node.id).Nodup ∧ ∀ n ∈ log', n.id < k :=
  ⟨h.1.sublist (hs.map Node.id), fun n hn => h.2 n (hs.subset hn)⟩

theorem appendMessage_wf {st : State} (h : WellFormed st) (m : Entry) :
    WellFormed (appendMessage st m) :=
  wf_push h rfl

theorem clearClick_wf {st : State} (h : WellFormed st) (time : JSString) :
    WellFormed (clearClick st time) :=
  wf_push (wf_sublist h (List.take_sublist 1 st.chatLog)) rfl

theorem handleEvent_wf {st : State} (h : WellFormed st) (e : Event) :
    WellFormed (handleEvent st e) := by
  cases e with
  | clear time => exact clearClick_wf h time
  | edit value => exact h

theorem events_wf (during : List Event) :
    ∀ {st : State}, WellFormed st → WellFormed (during.foldl handleEvent st) := by
  induction during with
  | nil => intro st h; exact h
  | cons e during ih => intro st h; exact ih (handleEvent_wf h e)

theorem handleUserMessageStart_wf {st : State} (h : WellFormed st) (message t1 t2 : JSString) :
    WellFormed (handleUserMessageStart st message t1 t2).1 :=
  wf_push (k := st.nextId + 1) (wf_push h rfl) rfl

theorem handleUserMessageResume_wf {st : State} (h : WellFormed st) (message : JSString)
    (typing : Node) (t3 : JSString) (r : Draw) :
    WellFormed (handleUserMessageResume st message typing t3 r) :=
  wf_push (wf_sublist h (List.filter_sublist st.chatLog)) rfl

theorem handleAction_wf {st : State} (h : WellFormed st) (a : Action) :
    WellFormed (handleAction st a) := by
  cases a with
  | event e => exact handleEvent_wf h e
  | message message t1 t2 during t3 r =>
    exact handleUserMessageResume_wf (events_wf during (handleUserMessageStart_wf h message t1 t2))
      message _ t3 r

/-- Every state that a session reaches from a page keeps its nodes apart. -/
theorem handleAll_wf (actions : List Action) :
    ∀ {st : State}, WellFormed st → WellFormed (handleAll st actions) := by
  induction actions with
  | nil => intro st h; exact h
  | cons a actions ih => intro st h; exact ih (handleAction_wf h a)

/-- An undisturbed run adds to the chat log the user's node and the bot's node: the typing
indicator it showed is the one node it takes out. -/
theorem handleUserMessage_chatLog {st : State} (h : WellFormed st) (message t1 t2 t3 : JSString)
    (r : Draw) :
    (handleUserMessage st message t1 t2 [] t3 r).chatLog =
      st.chatLog ++ [createMessage st.nextId (userEntry message t1),
        createMessage (st.nextId + 2)
          (botEntry (craftReply (st.history ++ [userEntry message t1]) r message) t3)] := by
  have hkeep : st.chatLog.filter (fun n => n.id != st.nextId + 1) = st.chatLog := by
    rw [List.filter_eq_self]
    intro n hn
    have := h.2 n hn
    simp
    omega
  simp [handleUserMessage, handleUserMessageResume, handleUserMessageStart, appendMessage,
    typingEntry, createMessage, List.filter_append, hkeep]

/-- C10, as the code has it: in a run of `handleUserMessage` that no other run interleaves, the
history at the call of `craftReply` is the previous history followed by the user's entry, or
is empty when the clear button was clicked during the wait; in both cases its last entry is
not of bot origin, so the reply is a member of the greetings, of some topic's replies or of the
fallbacks, and is not the continuation string, which none of these pools contains. After the
run the history is the history at the call followed by the bot entry that carries the reply:
the previous history, the user's entry and the bot entry without a clear click, the bot entry
alone with one. Over any session of such runs and of events between them, no bot entry added
to the history carries the continuation string. -/
theorem C10_sequential_no_continuation (st : State) (message t1 t2 : JSString)
    (during : List Event) (t3 : JSString) (r : Draw) (actions : List Action) :
    (during.foldl handleEvent (handleUserMessageStart st message t1 t2).1).history =
      (if during.any Event.isClear then [] else st.history ++ [userEntry message t1]) ∧
    (userEntry message t1).variant = Variant.user ∧
    (during.foldl handleEvent (handleUserMessageStart st message t1 t2).1).history.getLast?.map
      Entry.variant ≠ some Variant.bot ∧
    (∃ s, craftReply
        (during.foldl handleEvent (handleUserMessageStart st message t1 t2).1).history
        r message = some s ∧
      s ≠ continuation ∧
      (s ∈ personality.greetings ∨ (∃ t ∈ personality.topics, s ∈ t.replies) ∨
        s ∈ personality.fallbacks) ∧
      (handleUserMessage st message t1 t2 during t3 r).history =
        (if during.any Event.isClear then [] else st.history ++ [userEntry message t1]) ++
          [botEntry (some s) t3] ∧
      (handleUserMessage st message t1 t2 [] t3 r).history =
        st.history ++ [userEntry message t1,
          botEntry (craftReply (st.history ++ [userEntry message t1]) r message) t3]) ∧
    (continuation ∉ personality.greetings ∧ continuation ∉ personality.fallbacks ∧
      (personality.topics.all fun t => !t.replies.contains continuation) = true) ∧
    (handleAll st actions).history.all (fun e =>
      decide (e ∈ st.history) || decide (e.variant = Variant.user) ||
        decide (e.text ≠ some continuation)) = true := by
  refine ⟨atCall_history st message t1 t2 during, rfl, atCall_not_bot st message t1 t2 during,
    ?_, ⟨continuation_not_in_pools.1, continuation_not_in_pools.2.1, by decide⟩, ?_⟩
  · obtain ⟨s, hs, hne, hpool⟩ := craftReply_not_continuation _ message r
      (atCall_not_bot st message t1 t2 during)
    refine ⟨s, hs, hne, hpool, ?_, ?_⟩
    · rw [handleUserMessage_history, hs, atCall_history]
    · rw [handleUserMessage_history]
      simp [start_history]
  · rw [List.all_eq_true]
    intro e he
    have := handleAll_history actions st e he
    simpa [or_assoc] using this

/-- C10 as stated fails: from the sample state, a run of `handleUserMessage` on "plan" with one
click on the clear button during its wait, and no other run of it. At the call of `craftReply`
the history is empty, so it has no last entry of user origin, and after the run the history is
the bot entry alone, not the previous history followed by the user's entry and the bot
entry. -/
theorem C10_counterexample :
    (handleUserMessageStart sampleState (utf16 "plan") (utf16 "10:01") (utf16 "10:01")).1.history =
      sampleState.history ++ [userEntry (utf16 "plan") (utf16 "10:01")] ∧
    (handleEvent
      (handleUserMessageStart sampleState (utf16 "plan") (utf16 "10:01") (utf16 "10:01")).1
      (Event.clear (utf16 "10:01"))).history = [] ∧
    (handleUserMessage sampleState (utf16 "plan") (utf16 "10:01") (utf16 "10:01")
      [Event.clear (utf16 "10:01")] (utf16 "10:02") half).history =
      [botEntry planning.replies[1]? (utf16 "10:02")] ∧
    (handleUserMessage sampleState (utf16 "plan") (utf16 "10:01") (utf16 "10:01")
      [Event.clear (utf16 "10:01")] (utf16 "10:02") half).history ≠
      sampleState.history ++ [userEntry (utf16 "plan") (utf16 "10:01"),
        botEntry planning.replies[1]? (utf16 "10:02")] := by
  decide

/-- The run of the counterexample of C10 on the chat log: the clear click removes the typing
indicator with the other children after the first, and the run then adds the bot's node. -/
theorem handleUserMessage_cleared_example :
    ((handleUserMessage sampleState (utf16 "plan") (utf16 "10:01") (utf16 "10:01")
      [Event.clear (utf16 "10:01")] (utf16 "10:02") half).chatLog.map Node.id) = [0, 4, 5] := by
  decide

end ChatBot
